import Mathlib

/-!
Verification of the `ids` semantic-identifier library (Go package `ids`).

Go strings and byte slices are modelled as `List Nat` whose elements are
byte values (`< 256`); `uint8` arithmetic is `Nat` arithmetic with an
explicit `% 256` where Go truncates.  `byte(unicode.ToLower(rune(b)))` on
a single byte (as `computeAndValidatePrefix` does) is `toLowerByte`;
`strings.ToLower` (used by `NewCodecForNames` and the free-standing
`GetPrefix`) is `toLowerStr`, the rune-wise UTF-8 pipeline
decode / `unicode.ToLower` / encode of `strings.Map`, with the Unicode
simple lowercase mapping and U+FFFD replacement of invalid bytes.
Fallible Go functions returning `(T, error)` become `Except IDError T`.
-/

/-- Error values of the `ids` package: `ErrIDTooBig`, `ErrIDEmpty`,
`ErrInvalidChar`, `ErrMalformedID`, plus the `fmt.Errorf` internal errors
(collapsed into one constructor). -/
inductive IDError where
  | ErrIDTooBig
  | ErrIDEmpty
  | ErrInvalidChar
  | ErrMalformedID
  | ErrInternal
deriving DecidableEq

/-- MaxBytesIDSize: upper bound for the number of bytes in a semantic ID. -/
def MaxBytesIDSize : Nat := 256

/-- Byte-level model of Go's `byte(unicode.ToLower(rune(c)))` for a byte
`c`: ASCII `A`..`Z` and Latin-1 `À`..`Þ` (except `×`) move down by 32
(0x20); every other byte is fixed. -/
def toLowerByte (c : Nat) : Nat :=
  if (65 ≤ c ∧ c ≤ 90) ∨ (192 ≤ c ∧ c ≤ 222 ∧ c ≠ 215) then c + 32 else c

/-- Ranges `(lo, hi, stride, tlo)` of the Unicode simple lowercase mapping
used by `unicode.ToLower`: a code point `c` with `lo ≤ c ≤ hi` and
`(c - lo) % stride = 0` lowers to `tlo + (c - lo)`; code points in no
range (or off-stride) are fixed. -/
def goLowerRanges : List (Nat × Nat × Nat × Nat) :=
  [(65, 90, 1, 97), (192, 214, 1, 224), (216, 222, 1, 248), (256, 302, 2, 257),
   (304, 304, 1, 105), (306, 310, 2, 307), (313, 327, 2, 314), (330, 374, 2, 331),
   (376, 376, 1, 255), (377, 381, 2, 378), (385, 385, 1, 595), (386, 388, 2, 387),
   (390, 390, 1, 596), (391, 391, 1, 392), (393, 394, 1, 598), (395, 395, 1, 396),
   (398, 398, 1, 477), (399, 399, 1, 601), (400, 400, 1, 603), (401, 401, 1, 402),
   (403, 403, 1, 608), (404, 404, 1, 611), (406, 406, 1, 617), (407, 407, 1, 616),
   (408, 408, 1, 409), (412, 412, 1, 623), (413, 413, 1, 626), (415, 415, 1, 629),
   (416, 420, 2, 417), (422, 422, 1, 640), (423, 423, 1, 424), (425, 425, 1, 643),
   (428, 428, 1, 429), (430, 430, 1, 648), (431, 431, 1, 432), (433, 434, 1, 650),
   (435, 437, 2, 436), (439, 439, 1, 658), (440, 440, 1, 441), (444, 444, 1, 445),
   (452, 452, 1, 454), (453, 453, 1, 454), (455, 455, 1, 457), (456, 456, 1, 457),
   (458, 458, 1, 460), (459, 475, 2, 460), (478, 494, 2, 479), (497, 497, 1, 499),
   (498, 500, 2, 499), (502, 502, 1, 405), (503, 503, 1, 447), (504, 542, 2, 505),
   (544, 544, 1, 414), (546, 562, 2, 547), (570, 570, 1, 11365), (571, 571, 1, 572),
   (573, 573, 1, 410), (574, 574, 1, 11366), (577, 577, 1, 578), (579, 579, 1, 384),
   (580, 580, 1, 649), (581, 581, 1, 652), (582, 590, 2, 583), (880, 882, 2, 881),
   (886, 886, 1, 887), (895, 895, 1, 1011), (902, 902, 1, 940), (904, 906, 1, 941),
   (908, 908, 1, 972), (910, 911, 1, 973), (913, 929, 1, 945), (931, 939, 1, 963),
   (975, 975, 1, 983), (984, 1006, 2, 985), (1012, 1012, 1, 952), (1015, 1015, 1, 1016),
   (1017, 1017, 1, 1010), (1018, 1018, 1, 1019), (1021, 1023, 1, 891), (1024, 1039, 1, 1104),
   (1040, 1071, 1, 1072), (1120, 1152, 2, 1121), (1162, 1214, 2, 1163), (1216, 1216, 1, 1231),
   (1217, 1229, 2, 1218), (1232, 1326, 2, 1233), (1329, 1366, 1, 1377), (4256, 4293, 1, 11520),
   (4295, 4295, 1, 11559), (4301, 4301, 1, 11565), (5024, 5103, 1, 43888), (5104, 5109, 1, 5112),
   (7312, 7354, 1, 4304), (7357, 7359, 1, 4349), (7680, 7828, 2, 7681), (7838, 7838, 1, 223),
   (7840, 7934, 2, 7841), (7944, 7951, 1, 7936), (7960, 7965, 1, 7952), (7976, 7983, 1, 7968),
   (7992, 7999, 1, 7984), (8008, 8013, 1, 8000), (8025, 8031, 2, 8017), (8040, 8047, 1, 8032),
   (8072, 8079, 1, 8064), (8088, 8095, 1, 8080), (8104, 8111, 1, 8096), (8120, 8121, 1, 8112),
   (8122, 8123, 1, 8048), (8124, 8124, 1, 8115), (8136, 8139, 1, 8050), (8140, 8140, 1, 8131),
   (8152, 8153, 1, 8144), (8154, 8155, 1, 8054), (8168, 8169, 1, 8160), (8170, 8171, 1, 8058),
   (8172, 8172, 1, 8165), (8184, 8185, 1, 8056), (8186, 8187, 1, 8060), (8188, 8188, 1, 8179),
   (8486, 8486, 1, 969), (8490, 8490, 1, 107), (8491, 8491, 1, 229), (8498, 8498, 1, 8526),
   (8544, 8559, 1, 8560), (8579, 8579, 1, 8580), (9398, 9423, 1, 9424), (11264, 11311, 1, 11312),
   (11360, 11360, 1, 11361), (11362, 11362, 1, 619), (11363, 11363, 1, 7549), (11364, 11364, 1, 637),
   (11367, 11371, 2, 11368), (11373, 11373, 1, 593), (11374, 11374, 1, 625), (11375, 11375, 1, 592),
   (11376, 11376, 1, 594), (11378, 11378, 1, 11379), (11381, 11381, 1, 11382), (11390, 11391, 1, 575),
   (11392, 11490, 2, 11393), (11499, 11501, 2, 11500), (11506, 11506, 1, 11507), (42560, 42604, 2, 42561),
   (42624, 42650, 2, 42625), (42786, 42798, 2, 42787), (42802, 42862, 2, 42803), (42873, 42875, 2, 42874),
   (42877, 42877, 1, 7545), (42878, 42886, 2, 42879), (42891, 42891, 1, 42892), (42893, 42893, 1, 613),
   (42896, 42898, 2, 42897), (42902, 42920, 2, 42903), (42922, 42922, 1, 614), (42923, 42923, 1, 604),
   (42924, 42924, 1, 609), (42925, 42925, 1, 620), (42926, 42926, 1, 618), (42928, 42928, 1, 670),
   (42929, 42929, 1, 647), (42930, 42930, 1, 669), (42931, 42931, 1, 43859), (42932, 42946, 2, 42933),
   (42948, 42948, 1, 42900), (42949, 42949, 1, 642), (42950, 42950, 1, 7566), (42951, 42953, 2, 42952),
   (42960, 42960, 1, 42961), (42966, 42968, 2, 42967), (42997, 42997, 1, 42998), (65313, 65338, 1, 65345),
   (66560, 66599, 1, 66600), (66736, 66771, 1, 66776), (66928, 66938, 1, 66967), (66940, 66954, 1, 66979),
   (66956, 66962, 1, 66995), (66964, 66965, 1, 67003), (68736, 68786, 1, 68800), (71840, 71871, 1, 71872),
   (93760, 93791, 1, 93792), (125184, 125217, 1, 125218)]

/-- Model of `unicode.ToLower` on a code point. -/
def goToLower (c : Nat) : Nat :=
  match goLowerRanges.find? (fun q =>
      decide (q.1 ≤ c) && decide (c ≤ q.2.1) && decide ((c - q.1) % q.2.2.1 = 0)) with
  | some q => q.2.2.2 + (c - q.1)
  | none => c

/-- Model of `utf8.DecodeRuneInString`: the first rune of `s` and the
number of bytes consumed; invalid input (bad lead byte, out-of-range
continuation byte, overlong or truncated sequence) yields `U+FFFD` with
size 1, the empty string size 0. -/
def utf8DecodeFirst (s : List Nat) : Nat × Nat :=
  match s with
  | [] => (0xFFFD, 0)
  | b0 :: rest =>
    if b0 < 0x80 then (b0, 1)
    else if b0 < 0xC2 ∨ 0xF4 < b0 then (0xFFFD, 1)
    else
      let sz := if b0 ≤ 0xDF then 2 else if b0 ≤ 0xEF then 3 else 4
      let lo1 := if b0 = 0xE0 then 0xA0 else if b0 = 0xF0 then 0x90 else 0x80
      let hi1 := if b0 = 0xED then 0x9F else if b0 = 0xF4 then 0x8F else 0xBF
      if rest.length + 1 < sz then (0xFFFD, 1)
      else
        let b1 := rest.getD 0 0
        if b1 < lo1 ∨ hi1 < b1 then (0xFFFD, 1)
        else if sz = 2 then ((b0 - 0xC0) * 64 + (b1 - 0x80), 2)
        else
          let b2 := rest.getD 1 0
          if b2 < 0x80 ∨ 0xBF < b2 then (0xFFFD, 1)
          else if sz = 3 then
            ((b0 - 0xE0) * 4096 + (b1 - 0x80) * 64 + (b2 - 0x80), 3)
          else
            let b3 := rest.getD 2 0
            if b3 < 0x80 ∨ 0xBF < b3 then (0xFFFD, 1)
            else ((b0 - 0xF0) * 262144 + (b1 - 0x80) * 4096 + (b2 - 0x80) * 64
              + (b3 - 0x80), 4)

/-- Model of `utf8.EncodeRune` (shortest-form encoding; surrogates and
out-of-range values encode as U+FFFD). -/
def utf8EncodeRune (r : Nat) : List Nat :=
  if r < 0x80 then [r]
  else if r < 0x800 then [0xC0 + r / 64, 0x80 + r % 64]
  else if (0xD800 ≤ r ∧ r ≤ 0xDFFF) ∨ 0x10FFFF < r then [0xEF, 0xBF, 0xBD]
  else if r < 0x10000 then [0xE0 + r / 4096, 0x80 + (r / 64) % 64, 0x80 + r % 64]
  else [0xF0 + r / 262144, 0x80 + (r / 4096) % 64, 0x80 + (r / 64) % 64, 0x80 + r % 64]

/-- Rune-wise loop of `strings.Map(unicode.ToLower, s)`: decode a rune,
lower it, append its encoding, advance by the decoded width (an unchanged
valid rune is copied verbatim by `strings.Map`, which equals re-encoding
its shortest form; an invalid byte becomes the three U+FFFD bytes).
`fuel` starts at `s.length` and bounds the bytes consumed, one or more
per step. -/
def toLowerGo (fuel : Nat) (s : List Nat) : List Nat :=
  match fuel, s with
  | 0, _ => []
  | _ + 1, [] => []
  | fuel + 1, b0 :: rest =>
    let p := utf8DecodeFirst (b0 :: rest)
    utf8EncodeRune (goToLower p.1) ++ toLowerGo fuel (List.drop (p.2 - 1) rest)

/-- Model of `strings.ToLower` (its ASCII fast path agrees with the
rune-wise `strings.Map` on ASCII input). -/
def toLowerStr (s : List Nat) : List Nat := toLowerGo s.length s

/-- ASCII upper-casing of a byte, as `bytes.ToUpper` does on ASCII data
(used by the table generator, whose alphabet is pure ASCII). -/
def toUpperAscii (c : Nat) : Nat :=
  if 97 ≤ c ∧ c ≤ 122 then c - 32 else c

/-- ASCII lower-casing of a byte (`A`..`Z` to `a`..`z`). -/
def asciiLower (c : Nat) : Nat :=
  if 65 ≤ c ∧ c ≤ 90 then c + 32 else c

/-- gen.Chars: the fixed 32-character alphabet
`0`-`9`, `a`-`h`, `j`, `k`, `m`, `n`, `p`-`t`, `v`-`z` as byte values,
from `tools/base32_table_gen.go`. -/
def Chars : List Nat :=
  [48, 49, 50, 51, 52, 53, 54, 55, 56, 57,
   97, 98, 99, 100, 101, 102, 103, 104, 106, 107,
   109, 110, 112, 113, 114, 115, 116, 118, 119, 120,
   121, 122]

/-- gen.CharToIndex: the generated reverse table, sized `maxChar + 1 = 123`;
entry `c` is the alphabet index whose lower- or upper-case character is `c`,
and `-1` for bytes not in the alphabet (mirrors the generator's loop that
registers both `lowerChar` and `upperChar` of every alphabet entry). -/
def CharToIndex : List Int :=
  (List.range 123).map fun c =>
    match Chars.findIdx? (fun ch => c = ch || c = toUpperAscii ch) with
    | some i => (i : Int)
    | none => -1

--
-- PadlessBase32 (constants and helpers from semantic_id.go)
--

/-- byteSize: bits per byte. -/
def byteSize : Nat := 8

/-- baseBits: bits per base-32 symbol. -/
def baseBits : Nat := 5

/-- baseMask: low-5-bits mask `base - 1`. -/
def baseMask : Nat := 31

/-- getBaseChar: `gen.Chars[index]`. -/
def getBaseChar (index : Nat) : Nat := Chars.getD index 0

/-- Body of `getBaseCharCode` on the byte it reads: bounds-check against
`len(gen.CharToIndex)`, look the byte up, and fail with `ErrInvalidChar`
on a `-1` entry or an out-of-table byte (the Go local `index` is inlined). -/
def getBaseCharCode0 (ch : Nat) : Except IDError Nat :=
  if ch < CharToIndex.length then
    if 0 ≤ CharToIndex.getD ch (-1) then Except.ok (CharToIndex.getD ch (-1)).toNat
    else Except.error IDError.ErrInvalidChar
  else Except.error IDError.ErrInvalidChar

/-- getBaseCharCode: reads `value[charPos]` and resolves it through the
reverse table. -/
def getBaseCharCode (value : List Nat) (charPos : Nat) : Except IDError Nat :=
  getBaseCharCode0 (value.getD charPos 0)

/-- getEncodedSize: `(size*8 + 5 - 1) / 5`, the symbol count for `size`
payload bytes. -/
def getEncodedSize (size : Nat) : Nat := (size * byteSize + baseBits - 1) / baseBits

/-- Main loop of `appendBytes`, producing the 5-bit symbol values of the
`fullBase32ElemCount` full symbols: state `(startPosByte, offsetBitPos)`
walks the byte sequence; a symbol straddling a byte boundary takes its low
bits from the current byte's high bit-offsets and its high bits from the
next byte's low bit-offsets (counter `n` is the remaining iteration count
of the Go `for` loop). -/
def appendBytesLoop (body : List Nat) (startPosByte offsetBitPos n : Nat) : List Nat :=
  match n with
  | 0 => []
  | n + 1 =>
    let elem := body.getD startPosByte 0
    let endBitPos := offsetBitPos + baseBits
    let e := (elem >>> offsetBitPos) &&& baseMask
    if byteSize < endBitPos then
      let tailBitCount := endBitPos - byteSize
      let e := e ||| ((body.getD (startPosByte + 1) 0 &&& (2 ^ tailBitCount - 1)) <<< (baseBits - tailBitCount))
      e :: appendBytesLoop body (startPosByte + 1) tailBitCount n
    else
      e :: appendBytesLoop body startPosByte endBitPos n

/-- appendBytes at the level of symbol values: the full symbols followed by
the final partial symbol `lastElem >> (8 - partialBase32ElemBits)` when
`bodyBits` is not a multiple of 5. -/
def appendDigits (body : List Nat) : List Nat :=
  let bodyBits := byteSize * body.length
  let fullBase32ElemCount := bodyBits / baseBits
  let partialBase32ElemBits := bodyBits % baseBits
  appendBytesLoop body 0 0 fullBase32ElemCount ++
    (if 0 < partialBase32ElemBits then
      [(body.getD (body.length - 1) 0) >>> (byteSize - partialBase32ElemBits)]
    else [])

/-- appendBytes: each symbol value is written as its alphabet character
(`buf.WriteByte(getBaseChar(base32ElemIndex))` in the Go loop). -/
def appendBytes (body : List Nat) : List Nat := (appendDigits body).map getBaseChar

/-- Loop of `decodeBytes`: state is `(tailBits, tailBitsCount,
resultBitsOffset, resultPos, charPos)` plus the result buffer; `fuel`
bounds the iteration count (the caller passes enough for the Go loop's
guard to fail first).  Byte writes truncate to `% 256` as Go's `uint8`
shift does. -/
def decodeLoop (value : List Nat) (endPos byteCount : Nat)
    (tailBits tailBitsCount resultBitsOffset resultPos charPos : Nat)
    (result : List Nat) (fuel : Nat) : Except IDError (List Nat) :=
  match fuel with
  | 0 => Except.ok result
  | fuel + 1 =>
    if resultPos < byteCount ∧ charPos < endPos then
      if 0 < tailBitsCount then
        decodeLoop value endPos byteCount tailBits 0 tailBitsCount resultPos (charPos + 1)
          (result.set resultPos ((result.getD resultPos 0) ||| tailBits)) fuel
      else
        match getBaseCharCode value charPos with
        | Except.error e => Except.error e
        | Except.ok base32Digit =>
          let nextBitOffset := resultBitsOffset + baseBits
          if byteSize < nextBitOffset then
            let headBitCount := byteSize - resultBitsOffset
            decodeLoop value endPos byteCount (base32Digit >>> headBitCount)
              (nextBitOffset - byteSize) 0 (resultPos + 1) charPos
              (result.set resultPos
                ((result.getD resultPos 0) ||| ((base32Digit <<< resultBitsOffset) % 256))) fuel
          else if nextBitOffset = byteSize then
            decodeLoop value endPos byteCount tailBits 0 0 (resultPos + 1) (charPos + 1)
              (result.set resultPos
                ((result.getD resultPos 0) ||| ((base32Digit <<< resultBitsOffset) % 256))) fuel
          else
            decodeLoop value endPos byteCount tailBits 0 nextBitOffset resultPos (charPos + 1)
              (result.set resultPos
                ((result.getD resultPos 0) ||| ((base32Digit <<< resultBitsOffset) % 256))) fuel
    else Except.ok result

/-- decodeBytes: rejects `endPos <= startPos` with an internal error
(the `startPos < 0` check of the Go source is vacuous over `Nat`),
allocates `length*5/8` zero bytes and runs the decoding loop (the fuel
`2*length + 1` dominates the loop's decreasing measure, so the loop always
exits through its own guard). -/
def decodeBytes (value : List Nat) (startPos endPos : Nat) : Except IDError (List Nat) :=
  if endPos ≤ startPos then Except.error IDError.ErrInternal
  else
    let length := endPos - startPos
    let byteCount := length * baseBits / byteSize
    decodeLoop value endPos byteCount 0 0 0 0 startPos
      (List.replicate byteCount 0) (2 * length + 1)

--
-- Prefix handling
--

/-- prefixSeparator: the byte `'-'`. -/
def prefixSeparator : Nat := 45

/-- Model of `strings.LastIndexByte`: the largest index holding `c`, or
`-1` when `c` does not occur. -/
def lastIndexByte (s : List Nat) (c : Nat) : Int :=
  match s with
  | [] => -1
  | a :: rest =>
    let r := lastIndexByte rest c
    if 0 ≤ r then r + 1 else if a = c then 0 else -1

/-- Free-standing `GetPrefix`: the case-folded substring up to and
including the last separator, or empty when there is no separator or the
last one is at index 0 (`lastPrefixIndex <= 0`). -/
def GetPrefix (maybeSemanticID : List Nat) : List Nat :=
  let lastPrefixIndex := lastIndexByte maybeSemanticID prefixSeparator
  if lastPrefixIndex ≤ 0 then []
  else toLowerStr (maybeSemanticID.take (lastPrefixIndex.toNat + 1))

/-- getPrefixLength: sum of `len(name) + 1` over the codec's names. -/
def getPrefixLength (names : List (List Nat)) : Nat :=
  match names with
  | [] => 0
  | name :: rest => name.length + 1 + getPrefixLength rest

/-- newBufferWithPrefix, as the string it builds: each name followed by the
separator, in order. -/
def newBufferWithPrefix (names : List (List Nat)) : List Nat :=
  match names with
  | [] => []
  | name :: rest => name ++ prefixSeparator :: newBufferWithPrefix rest

/-- The codec implementation struct: the (lowercased) name segments. -/
structure PrefixedIDCodec where
  Names : List (List Nat)
deriving DecidableEq

/-- NewCodecForNames: lowercases every name and stores the list. -/
def NewCodecForNames (names : List (List Nat)) : PrefixedIDCodec :=
  { Names := names.map toLowerStr }

/-- GetPrefix method of the codec: the string `newBufferWithPrefix` builds
from its names. -/
def PrefixedIDCodec.GetPrefix (c : PrefixedIDCodec) : List Nat :=
  newBufferWithPrefix c.Names

/-- Inner loop of `computeAndValidatePrefix` over one name: each name
character must be matched by the lowercased identifier character at
`charIndex` (failing also when the identifier ends early). -/
def matchName (id : List Nat) (name : List Nat) (charIndex : Nat) : Option Nat :=
  match name with
  | [] => some charIndex
  | nameChar :: rest =>
    if charIndex < id.length ∧ toLowerByte (id.getD charIndex 0) = nameChar then
      matchName id rest (charIndex + 1)
    else none

/-- Outer loop of `computeAndValidatePrefix`: every name in order, each
followed by the separator character compared exactly. -/
def matchNames (id : List Nat) (names : List (List Nat)) (charIndex : Nat) : Option Nat :=
  match names with
  | [] => some charIndex
  | name :: rest =>
    match matchName id name charIndex with
    | none => none
    | some ci =>
      if ci < id.length ∧ id.getD ci 0 = prefixSeparator then matchNames id rest (ci + 1)
      else none

/-- Validation loop over the identifier body: every character from
`charIndex` on must resolve through the alphabet table (`n` is the number
of characters left to check). -/
def validateFrom (id : List Nat) (charIndex n : Nat) : Except IDError Unit :=
  match n with
  | 0 => Except.ok ()
  | n + 1 =>
    match getBaseCharCode id charIndex with
    | Except.error e => Except.error e
    | Except.ok _ => validateFrom id (charIndex + 1) n

/-- computeAndValidatePrefix: match all names (each with its trailing
separator) case-insensitively, then require a non-empty remainder of
alphabet-valid characters; returns the prefix length. -/
def computeAndValidatePrefix (c : PrefixedIDCodec) (id : List Nat) : Except IDError Nat :=
  match matchNames id c.Names 0 with
  | none => Except.error IDError.ErrMalformedID
  | some charIndex =>
    if 0 < id.length - charIndex then
      match validateFrom id charIndex (id.length - charIndex) with
      | Except.error e => Except.error e
      | Except.ok _ => Except.ok charIndex
    else Except.error IDError.ErrMalformedID

/-- CanDecode: whether prefix computation and body validation succeed. -/
def PrefixedIDCodec.CanDecode (c : PrefixedIDCodec) (id : List Nat) : Bool :=
  match computeAndValidatePrefix c id with
  | Except.error _ => false
  | Except.ok _ => true

/-- Encode: reject empty and oversized payloads, then prefix plus packed
payload; the capacity check mirrors the Go buffer-length assertion. -/
def PrefixedIDCodec.Encode (c : PrefixedIDCodec) (value : List Nat) :
    Except IDError (List Nat) :=
  let valueLen := value.length
  if valueLen = 0 then Except.error IDError.ErrIDEmpty
  else if MaxBytesIDSize < valueLen then Except.error IDError.ErrIDTooBig
  else
    let capacity := getPrefixLength c.Names + getEncodedSize valueLen
    let buf := newBufferWithPrefix c.Names ++ appendBytes value
    if buf.length ≠ capacity then Except.error IDError.ErrInternal
    else Except.ok buf

/-- Decode: validate the prefix, then unpack the remainder. -/
def PrefixedIDCodec.Decode (c : PrefixedIDCodec) (id : List Nat) :
    Except IDError (List Nat) :=
  match computeAndValidatePrefix c id with
  | Except.error e => Except.error e
  | Except.ok prefixLength => decodeBytes id prefixLength id.length


--
-- Proof infrastructure
--

instance {ε α : Type} [DecidableEq ε] [DecidableEq α] : DecidableEq (Except ε α) := fun a b =>
  match a, b with
  | Except.ok x, Except.ok y =>
    if h : x = y then Decidable.isTrue (by rw [h]) else Decidable.isFalse (by simp [h])
  | Except.error x, Except.error y =>
    if h : x = y then Decidable.isTrue (by rw [h]) else Decidable.isFalse (by simp [h])
  | Except.ok _, Except.error _ => Decidable.isFalse (by simp)
  | Except.error _, Except.ok _ => Decidable.isFalse (by simp)

/-- Bit `t` of the little-endian bit stream of a list of `w`-bit words:
bit `t % w` of word `t / w`. -/
def streamBit (w : Nat) (l : List Nat) (t : Nat) : Bool :=
  (l.getD (t / w) 0).testBit (t % w)

theorem getD_set (l : List Nat) (n i a : Nat) :
    (l.set n a).getD i 0 = if n = i ∧ n < l.length then a else l.getD i 0 := by
  rw [List.getD_eq_getElem?_getD, List.getD_eq_getElem?_getD, List.getElem?_set]
  by_cases h1 : n = i
  · subst h1
    by_cases h2 : n < l.length
    · simp [h2]
    · simp [h2, List.getElem?_eq_none (Nat.le_of_not_lt h2)]
  · simp [h1]

theorem streamBit_ge (l : List Nat) (t : Nat) (h : 8 * l.length ≤ t) :
    streamBit 8 l t = false := by
  unfold streamBit
  rw [List.getD_eq_default]
  · simp [Nat.testBit]
  · omega

--
-- Alphabet table facts
--

theorem charToIndex_length : CharToIndex.length = 123 := by decide

set_option maxRecDepth 8000 in
theorem charCode_getBaseChar : ∀ d, d < 32 → getBaseCharCode0 (getBaseChar d) = Except.ok d := by
  decide

set_option maxRecDepth 8000 in
theorem charToIndex_lt : ∀ c, c < 123 → CharToIndex.getD c (-1) < 32 := by decide

theorem charCode_lt (ch d : Nat) (h : getBaseCharCode0 ch = Except.ok d) : d < 32 := by
  unfold getBaseCharCode0 at h
  by_cases hc : ch < CharToIndex.length
  · rw [if_pos hc] at h
    by_cases hi : (0 : Int) ≤ CharToIndex.getD ch (-1)
    · rw [if_pos hi] at h
      injection h with h
      have h2 := charToIndex_lt ch (by rw [charToIndex_length] at hc; exact hc)
      omega
    · rw [if_neg hi] at h
      exact absurd h (by simp)
  · rw [if_neg hc] at h
    exact absurd h (by simp)

set_option maxRecDepth 20000 in
theorem charCode_asciiLower_small : ∀ ch, ch < 123 →
    getBaseCharCode0 (asciiLower ch) = getBaseCharCode0 ch := by decide

theorem charCode_asciiLower (ch : Nat) :
    getBaseCharCode0 (asciiLower ch) = getBaseCharCode0 ch := by
  by_cases h : ch < 123
  · exact charCode_asciiLower_small ch h
  · have : asciiLower ch = ch := by
      unfold asciiLower
      rw [if_neg (by omega)]
    rw [this]

theorem charCode_error (ch : Nat) (e : IDError) (h : getBaseCharCode0 ch = Except.error e) :
    e = IDError.ErrInvalidChar := by
  unfold getBaseCharCode0 at h
  by_cases hc : ch < CharToIndex.length
  · rw [if_pos hc] at h
    by_cases hi : (0 : Int) ≤ CharToIndex.getD ch (-1)
    · rw [if_pos hi] at h
      exact absurd h (by simp)
    · rw [if_neg hi] at h
      injection h with h
      exact h.symm
  · rw [if_neg hc] at h
    injection h with h
    exact h.symm

--
-- Encoder: length and pointwise bit characterization
--

theorem appendBytesLoop_length (body : List Nat) :
    ∀ n startPosByte offsetBitPos, (appendBytesLoop body startPosByte offsetBitPos n).length = n := by
  intro n
  induction n with
  | zero => intro s o; rfl
  | succ n ih =>
    intro s o
    unfold appendBytesLoop
    by_cases h : byteSize < o + baseBits
    · simp only [h, if_true, List.length_cons, ih]
    · simp only [h, if_false, List.length_cons, ih]

theorem appendDigits_length (body : List Nat) :
    (appendDigits body).length = getEncodedSize body.length := by
  unfold appendDigits getEncodedSize
  rw [List.length_append, appendBytesLoop_length]
  unfold byteSize baseBits
  by_cases h : 0 < 8 * body.length % 5
  · simp only [h, if_true, List.length_cons, List.length_nil]
    omega
  · simp only [h, if_false, List.length_nil]
    omega

theorem appendBytes_length (body : List Nat) :
    (appendBytes body).length = getEncodedSize body.length := by
  unfold appendBytes
  rw [List.length_map, appendDigits_length]

theorem testBit_ge8 (x i : Nat) (hx : x < 256) (hi : 8 ≤ i) : x.testBit i = false := by
  have h2 : (256 : Nat) = 2 ^ 8 := by norm_num
  exact Nat.testBit_eq_false_of_lt
    (lt_of_lt_of_le (h2 ▸ hx) (Nat.pow_le_pow_right (by norm_num) hi))

theorem getD_lt_256 (body : List Nat) (hb : ∀ x ∈ body, x < 256) (s : Nat) :
    body.getD s 0 < 256 := by
  by_cases h : s < body.length
  · rw [List.getD_eq_getElem body 0 h]
    exact hb _ (List.getElem_mem h)
  · rw [List.getD_eq_default _ _ (Nat.le_of_not_lt h)]
    norm_num

theorem appendBytesLoop_testBit (body : List Nat) (hb : ∀ x ∈ body, x < 256) :
    ∀ n s o, o ≤ 8 → ∀ j, j < n → ∀ k,
    ((appendBytesLoop body s o n).getD j 0).testBit k =
      (decide (k < 5) && streamBit 8 body (8 * s + o + 5 * j + k)) := by
  intro n
  induction n with
  | zero => intro s o _ j hj; omega
  | succ n ih =>
    intro s o ho j hj k
    unfold appendBytesLoop
    by_cases h8 : byteSize < o + baseBits
    · simp only [h8, if_true]
      match j with
      | 0 =>
        simp only [List.getD_cons_zero, Nat.mul_zero, Nat.add_zero]
        rw [Nat.testBit_lor, Nat.testBit_land, Nat.testBit_shiftRight,
          Nat.testBit_shiftLeft, Nat.testBit_land]
        unfold byteSize baseBits at h8 ⊢
        have h31 : (baseMask : Nat) = 2 ^ 5 - 1 := rfl
        rw [h31, Nat.testBit_two_pow_sub_one, Nat.testBit_two_pow_sub_one]
        by_cases hk5 : k < 5
        · by_cases hok : o + k < 8
          · -- the bit comes from the current byte
            unfold streamBit
            have hd : (8 * s + o + k) / 8 = s := by omega
            have hm8 : (8 * s + o + k) % 8 = o + k := by omega
            rw [hd, hm8]
            simp [hk5]
            exact fun h => absurd h (by omega)
          · -- the bit comes from the next byte
            unfold streamBit
            have hd : (8 * s + o + k) / 8 = s + 1 := by omega
            have hm8 : (8 * s + o + k) % 8 = o + k - 8 := by omega
            rw [hd, hm8]
            have hx : (body.getD s 0).testBit (o + k) = false :=
              testBit_ge8 _ _ (getD_lt_256 body hb s) (by omega)
            have harg : k - (5 - (o + 5 - 8)) = o + k - 8 := by omega
            rw [hx, harg]
            simp [hk5]
            simp [show 5 ≤ k + (o - 3) from by omega, show o + k - 8 < o - 3 from by omega]
        · -- k ≥ 5: both sides are false
          simp [hk5]
          intro h1 _
          omega
      | j + 1 =>
        simp only [List.getD_cons_succ]
        unfold byteSize baseBits at h8 ⊢
        rw [ih (s + 1) (o + 5 - 8) (by omega) j (by omega) k,
          show 8 * (s + 1) + (o + 5 - 8) + 5 * j + k = 8 * s + o + 5 * (j + 1) + k from by omega]
    · simp only [h8, if_false]
      match j with
      | 0 =>
        simp only [List.getD_cons_zero, Nat.mul_zero, Nat.add_zero]
        rw [Nat.testBit_land, Nat.testBit_shiftRight]
        have h31 : (baseMask : Nat) = 2 ^ 5 - 1 := rfl
        rw [h31, Nat.testBit_two_pow_sub_one]
        unfold byteSize baseBits at h8
        by_cases hk5 : k < 5
        · unfold streamBit
          have hd : (8 * s + o + k) / 8 = s := by omega
          have hm8 : (8 * s + o + k) % 8 = o + k := by omega
          rw [hd, hm8]
          simp [hk5]
        · simp [hk5]
      | j + 1 =>
        simp only [List.getD_cons_succ]
        unfold byteSize baseBits at h8
        rw [show (o + baseBits) = o + 5 from rfl,
          ih s (o + 5) (by omega) j (by omega) k,
          show 8 * s + (o + 5) + 5 * j + k = 8 * s + o + 5 * (j + 1) + k from by omega]

theorem appendDigits_testBit (body : List Nat) (hb : ∀ x ∈ body, x < 256) (j k : Nat) :
    ((appendDigits body).getD j 0).testBit k =
      (decide (k < 5) && streamBit 8 body (5 * j + k)) := by
  unfold appendDigits
  by_cases hj : j < byteSize * body.length / baseBits
  · rw [List.getD_append _ _ _ _ (by rw [appendBytesLoop_length]; exact hj)]
    have := appendBytesLoop_testBit body hb (byteSize * body.length / baseBits) 0 0
      (by omega) j hj k
    simpa using this
  · rw [List.getD_append_right _ _ _ _ (by rw [appendBytesLoop_length]; omega)]
    rw [appendBytesLoop_length]
    unfold byteSize baseBits at hj ⊢
    by_cases hp : 0 < 8 * body.length % 5
    · simp only [hp, if_true]
      by_cases hje : j = 8 * body.length / 5
      · subst hje
        rw [show 8 * body.length / 5 - 8 * body.length / 5 = 0 from by omega,
          List.getD_cons_zero, Nat.testBit_shiftRight]
        by_cases hk : k < 8 * body.length % 5
        · unfold streamBit
          have hL : 0 < body.length := by
            rcases Nat.eq_zero_or_pos body.length with h | h
            · rw [h] at hp; simp at hp
            · exact h
          have hd : (5 * (8 * body.length / 5) + k) / 8 = body.length - 1 := by omega
          have hm : (5 * (8 * body.length / 5) + k) % 8 = 8 - 8 * body.length % 5 + k := by
            omega
          rw [hd, hm]
          simp [show k < 5 from by omega]
        · have hbit : (body.getD (body.length - 1) 0).testBit (8 - 8 * body.length % 5 + k)
              = false :=
            testBit_ge8 _ _ (getD_lt_256 body hb _) (by omega)
          rw [hbit]
          rw [streamBit_ge body _ (by omega)]
          simp
      · rw [List.getD_eq_default _ _ (by simp; omega)]
        rw [streamBit_ge body _ (by omega)]
        simp [Nat.testBit]
    · simp only [hp, if_false]
      rw [List.getD_nil]
      rw [streamBit_ge body _ (by omega)]
      simp [Nat.testBit]

theorem testBit_ge5 (x m : Nat) (hx : x < 32) (hm : 5 ≤ m) : x.testBit m = false := by
  have h2 : (32 : Nat) = 2 ^ 5 := by norm_num
  exact Nat.testBit_eq_false_of_lt
    (lt_of_lt_of_le (h2 ▸ hx) (Nat.pow_le_pow_right (by norm_num) hm))

theorem appendDigits_lt (body : List Nat) (hb : ∀ x ∈ body, x < 256) (j : Nat) :
    (appendDigits body).getD j 0 < 32 := by
  have h : (appendDigits body).getD j 0 = (appendDigits body).getD j 0 % 2 ^ 5 := by
    apply Nat.eq_of_testBit_eq
    intro i
    rw [Nat.testBit_mod_two_pow]
    by_cases hi : i < 5
    · simp [hi]
    · rw [appendDigits_testBit body hb j i]
      simp [hi]
  rw [h]
  have : (2 : Nat) ^ 5 = 32 := by norm_num
  rw [this]
  exact Nat.mod_lt _ (by norm_num)

--
-- Decoder: pointwise bit characterization
--

/-- The symbol value of the character at position `p` of `value` (zero when
the character is invalid; only used at positions known to be valid). -/
def digitAt (value : List Nat) (p : Nat) : Nat :=
  match getBaseCharCode value p with
  | Except.ok d => d
  | Except.error _ => 0

/-- Bit `t` of the 5-bit symbol stream of `value` starting at `startPos`. -/
def dBit (value : List Nat) (startPos t : Nat) : Bool :=
  (digitAt value (startPos + t / 5)).testBit (t % 5)

theorem dBit_eq5 (value : List Nat) (startPos j m : Nat) (hm : m < 5) :
    dBit value startPos (5 * j + m) = (digitAt value (startPos + j)).testBit m := by
  unfold dBit
  rw [show (5 * j + m) / 5 = j from by omega, show (5 * j + m) % 5 = m from by omega]

theorem set_or_testBit (result : List Nat) (rp X i k : Nat) (hrp : rp < result.length) :
    ((result.set rp ((result.getD rp 0) ||| X)).getD i 0).testBit k =
      if rp = i then ((result.getD rp 0).testBit k || X.testBit k)
      else (result.getD i 0).testBit k := by
  rw [getD_set]
  by_cases h : rp = i
  · simp [h, h ▸ hrp, Nat.testBit_lor]
  · simp [h]

theorem decodeLoop_spec (value : List Nat) (startPos endPos byteCount : Nat)
    (hbc : 8 * byteCount ≤ 5 * (endPos - startPos))
    (hvalid : ∀ t, startPos ≤ t → t < endPos → ∃ d, getBaseCharCode value t = Except.ok d) :
    ∀ fuel tailBits tailCnt off resultPos charPos result,
    result.length = byteCount →
    startPos ≤ charPos →
    2 * (endPos - charPos) + (if tailCnt = 0 then 1 else 0) ≤ fuel →
    ((tailCnt = 0 ∧ off ≤ 7 ∧ 8 * resultPos + off = 5 * (charPos - startPos) ∧
        (0 < off → resultPos < byteCount) ∧
        (∀ i k, (result.getD i 0).testBit k =
          (((decide (i < resultPos) && decide (k < 8)) ||
            (decide (i = resultPos) && decide (k < off))) && dBit value startPos (8 * i + k)))) ∨
     (0 < tailCnt ∧ tailCnt ≤ 4 ∧ off = 0 ∧ charPos < endPos ∧
        8 * resultPos = 5 * (charPos - startPos) + (5 - tailCnt) ∧
        (∀ k, tailBits.testBit k =
          (decide (k < tailCnt) && dBit value startPos (8 * resultPos + k))) ∧
        (∀ i k, (result.getD i 0).testBit k =
          ((decide (i < resultPos) && decide (k < 8)) && dBit value startPos (8 * i + k))))) →
    ∃ r, decodeLoop value endPos byteCount tailBits tailCnt off resultPos charPos result fuel
        = Except.ok r ∧
      r.length = byteCount ∧
      (∀ i k, (r.getD i 0).testBit k =
        ((decide (i < byteCount) && decide (k < 8)) && dBit value startPos (8 * i + k))) := by
  intro fuel
  induction fuel with
  | zero =>
    intro tailBits tailCnt off resultPos charPos result _ _ hfuel hinv
    rcases hinv with ⟨ht0, _⟩ | ⟨htp, _, _, hce, _⟩
    · rw [if_pos ht0] at hfuel
      omega
    · rw [if_neg (show ¬ tailCnt = 0 from by omega)] at hfuel
      omega
  | succ fuel ih =>
    intro tailBits tailCnt off resultPos charPos result hlen hsc hfuel hinv
    unfold decodeLoop
    by_cases hg : resultPos < byteCount ∧ charPos < endPos
    · rw [if_pos hg]
      by_cases ht : 0 < tailCnt
      · rw [if_pos ht]
        rw [if_neg (show ¬ tailCnt = 0 from by omega)] at hfuel
        rcases hinv with ⟨ht0, _⟩ | ⟨_, ht4, _, _, hpos, htail, hres⟩
        · omega
        apply ih
        · rw [List.length_set]; exact hlen
        · omega
        · show 2 * (endPos - (charPos + 1)) + 1 ≤ fuel
          omega
        · left
          refine ⟨rfl, by omega, by omega, fun _ => hg.1, ?_⟩
          intro i k
          rw [set_or_testBit result resultPos tailBits i k (by rw [hlen]; exact hg.1)]
          by_cases hi : resultPos = i
          · subst hi
            rw [hres resultPos k, htail k]
            by_cases hk : k < tailCnt <;>
              simp [hk, show ¬ resultPos < resultPos from by omega]
          · rw [hres i k]
            by_cases hik : i < resultPos <;>
              simp [hi, hik, show ¬ i = resultPos from fun h => hi h.symm]
      · rw [if_neg ht]
        rw [if_pos (show tailCnt = 0 from by omega)] at hfuel
        rcases hinv with ⟨_, hoff, hpos, hor, hres⟩ | ⟨htp, _⟩
        swap
        · omega
        obtain ⟨d, hd⟩ := hvalid charPos hsc hg.2
        simp only [hd]
        have hdlt : d < 32 := charCode_lt _ _ hd
        have hdig : digitAt value charPos = d := by unfold digitAt; rw [hd]
        have hdbit : ∀ m, m < 5 →
            d.testBit m = dBit value startPos (5 * (charPos - startPos) + m) := by
          intro m hm
          rw [dBit_eq5 value startPos (charPos - startPos) m hm,
            show startPos + (charPos - startPos) = charPos from by omega, hdig]
        by_cases h85 : byteSize < off + baseBits
        · rw [if_pos h85]
          unfold byteSize baseBits at h85
          apply ih
          · rw [List.length_set]; exact hlen
          · omega
          · rw [if_neg (show ¬ (off + baseBits - byteSize = 0) from by
              unfold byteSize baseBits; omega)]
            omega
          · right
            unfold byteSize baseBits
            refine ⟨by omega, by omega, rfl, hg.2, by omega, ?_, ?_⟩
            · intro k
              rw [Nat.testBit_shiftRight]
              by_cases hk : k < off + 5 - 8
              · rw [hdbit (8 - off + k) (by omega),
                  show 5 * (charPos - startPos) + (8 - off + k) = 8 * (resultPos + 1) + k
                    from by omega]
                simp [hk, show k < off - 3 from by omega]
              · rw [testBit_ge5 d _ hdlt (by omega)]
                simp only [Bool.false_eq, Bool.and_eq_false_imp, decide_eq_true_eq]
                exact fun h => absurd h (by omega)
            · intro i k
              rw [set_or_testBit result resultPos _ i k (by rw [hlen]; exact hg.1)]
              by_cases hi : resultPos = i
              · subst hi
                rw [hres resultPos k, show (256 : Nat) = 2 ^ 8 from by norm_num,
                  Nat.testBit_mod_two_pow, Nat.testBit_shiftLeft]
                by_cases hk8 : k < 8
                · by_cases hko : off ≤ k
                  · rw [hdbit (k - off) (by omega),
                      show 5 * (charPos - startPos) + (k - off) = 8 * resultPos + k
                        from by omega]
                    simp [hk8, hko, show ¬ k < off from by omega,
                      show ¬ resultPos < resultPos from by omega,
                      show resultPos < resultPos + 1 from by omega]
                  · simp [hk8, hko, show k < off from by omega,
                      show ¬ resultPos < resultPos from by omega,
                      show resultPos < resultPos + 1 from by omega]
                · simp [hk8, show ¬ k < off from by omega,
                    show ¬ resultPos < resultPos from by omega]
              · rw [hres i k]
                by_cases hik : i < resultPos
                · simp [hi, hik, show i < resultPos + 1 from by omega,
                    show ¬ i = resultPos from fun h => hi h.symm]
                · simp [hi, hik, show ¬ i < resultPos + 1 from by omega,
                    show ¬ i = resultPos from fun h => hi h.symm]
        · rw [if_neg h85]
          unfold byteSize baseBits at h85
          by_cases heq : off + baseBits = byteSize
          · rw [if_pos heq]
            unfold byteSize baseBits at heq
            apply ih
            · rw [List.length_set]; exact hlen
            · omega
            · show 2 * (endPos - (charPos + 1)) + 1 ≤ fuel
              omega
            · left
              refine ⟨rfl, by omega, by omega, fun h => absurd h (by omega), ?_⟩
              intro i k
              rw [set_or_testBit result resultPos _ i k (by rw [hlen]; exact hg.1)]
              by_cases hi : resultPos = i
              · subst hi
                rw [hres resultPos k, show (256 : Nat) = 2 ^ 8 from by norm_num,
                  Nat.testBit_mod_two_pow, Nat.testBit_shiftLeft]
                by_cases hk8 : k < 8
                · by_cases hko : off ≤ k
                  · rw [hdbit (k - off) (by omega),
                      show 5 * (charPos - startPos) + (k - off) = 8 * resultPos + k
                        from by omega]
                    simp [hk8, hko, show ¬ k < off from by omega,
                      show ¬ resultPos < resultPos from by omega,
                      show resultPos < resultPos + 1 from by omega]
                  · simp [hk8, hko, show k < off from by omega,
                      show ¬ resultPos < resultPos from by omega,
                      show resultPos < resultPos + 1 from by omega]
                · simp [hk8, show ¬ k < off from by omega,
                    show ¬ resultPos < resultPos from by omega]
              · rw [hres i k]
                by_cases hik : i < resultPos
                · simp [hi, hik, show i < resultPos + 1 from by omega,
                    show ¬ i = resultPos from fun h => hi h.symm]
                · simp [hi, hik, show ¬ i < resultPos + 1 from by omega,
                    show ¬ i = resultPos from fun h => hi h.symm]
          · rw [if_neg heq]
            unfold byteSize baseBits at heq
            apply ih
            · rw [List.length_set]; exact hlen
            · omega
            · show 2 * (endPos - (charPos + 1)) + 1 ≤ fuel
              omega
            · left
              simp only [baseBits]
              refine ⟨by trivial, by omega, by omega, fun _ => hg.1, ?_⟩
              intro i k
              rw [set_or_testBit result resultPos _ i k (by rw [hlen]; exact hg.1)]
              by_cases hi : resultPos = i
              · subst hi
                rw [hres resultPos k, show (256 : Nat) = 2 ^ 8 from by norm_num,
                  Nat.testBit_mod_two_pow, Nat.testBit_shiftLeft]
                by_cases hko : k < off
                · simp [hko, show ¬ off ≤ k from by omega, show k < off + 5 from by omega,
                    show k < 8 from by omega, show ¬ resultPos < resultPos from by omega]
                · by_cases hk5 : k < off + 5
                  · rw [hdbit (k - off) (by omega),
                      show 5 * (charPos - startPos) + (k - off) = 8 * resultPos + k
                        from by omega]
                    simp [hko, hk5, show off ≤ k from by omega, show k < 8 from by omega,
                      show ¬ resultPos < resultPos from by omega]
                  · rw [testBit_ge5 d (k - off) hdlt (by omega)]
                    simp [hko, hk5, show ¬ resultPos < resultPos from by omega]
              · rw [hres i k]
                by_cases hik : i < resultPos
                · simp [hi, hik, show ¬ i = resultPos from fun h => hi h.symm]
                · simp [hi, hik, show ¬ i = resultPos from fun h => hi h.symm]
    · rw [if_neg hg]
      refine ⟨result, rfl, hlen, ?_⟩
      have hge : byteCount ≤ resultPos := by
        rcases Nat.lt_or_ge resultPos byteCount with h | h
        · have hce : endPos ≤ charPos := by
            by_contra hc
            exact hg ⟨h, by omega⟩
          rcases hinv with ⟨_, hoff, hpos, _, _⟩ | ⟨_, _, _, hce2, _⟩
          · omega
          · omega
        · exact h
      intro i k
      by_cases hib : i < byteCount
      · rcases hinv with ⟨_, _, _, _, hres⟩ | ⟨_, _, _, _, _, _, hres⟩
        · rw [hres i k]
          simp [hib, show i < resultPos from by omega, show ¬ i = resultPos from by omega]
        · rw [hres i k]
          simp [hib, show i < resultPos from by omega]
      · rw [List.getD_eq_default _ _ (by omega)]
        simp [hib, Nat.testBit]

theorem getD_replicate (n i : Nat) : (List.replicate n (0 : Nat)).getD i 0 = 0 := by
  by_cases h : i < n
  · rw [List.getD_eq_getElem _ _ (by simpa using h)]
    exact List.getElem_replicate _ _
  · rw [List.getD_eq_default _ _ (by simpa using Nat.le_of_not_lt h)]

theorem decodeBytes_spec (value : List Nat) (startPos endPos : Nat)
    (hse : startPos < endPos)
    (hvalid : ∀ t, startPos ≤ t → t < endPos → ∃ d, getBaseCharCode value t = Except.ok d) :
    ∃ r, decodeBytes value startPos endPos = Except.ok r ∧
      r.length = (endPos - startPos) * 5 / 8 ∧
      (∀ i k, (r.getD i 0).testBit k =
        ((decide (i < (endPos - startPos) * 5 / 8) && decide (k < 8)) &&
          dBit value startPos (8 * i + k))) := by
  unfold decodeBytes
  rw [if_neg (by omega)]
  show ∃ r,
    decodeLoop value endPos ((endPos - startPos) * 5 / 8) 0 0 0 0 startPos
      (List.replicate ((endPos - startPos) * 5 / 8) 0) (2 * (endPos - startPos) + 1) =
        Except.ok r ∧ _
  apply decodeLoop_spec value startPos endPos ((endPos - startPos) * 5 / 8) (by omega) hvalid
  · exact List.length_replicate _ _
  · exact Nat.le_refl _
  · rw [if_pos rfl]
  · left
    refine ⟨rfl, by omega, by omega, fun h => absurd h (by omega), ?_⟩
    intro i k
    rw [getD_replicate]
    simp [Nat.testBit, show ¬ i < 0 from by omega, show ¬ k < 0 from by omega]

--
-- Prefix matching characterization
--

theorem toLowerByte_idem (c : Nat) : toLowerByte (toLowerByte c) = toLowerByte c := by
  unfold toLowerByte
  by_cases h : (65 ≤ c ∧ c ≤ 90) ∨ (192 ≤ c ∧ c ≤ 222 ∧ c ≠ 215)
  · rw [if_pos h, if_neg (by omega)]
  · rw [if_neg h, if_neg h]

theorem toLowerByte_eq_sep (c : Nat) (h : toLowerByte c = prefixSeparator) :
    c = prefixSeparator := by
  unfold toLowerByte at h
  unfold prefixSeparator at h ⊢
  by_cases hc : (65 ≤ c ∧ c ≤ 90) ∨ (192 ≤ c ∧ c ≤ 222 ∧ c ≠ 215)
  · rw [if_pos hc] at h; omega
  · rw [if_neg hc] at h; omega

theorem newBufferWithPrefix_length (names : List (List Nat)) :
    (newBufferWithPrefix names).length = getPrefixLength names := by
  induction names with
  | nil => rfl
  | cons name rest ih =>
    unfold newBufferWithPrefix getPrefixLength
    rw [List.length_append, List.length_cons, ih]
    omega

theorem matchName_some (id name : List Nat) :
    ∀ ci, ci + name.length ≤ id.length →
    (∀ m, m < name.length → toLowerByte (id.getD (ci + m) 0) = name.getD m 0) →
    matchName id name ci = some (ci + name.length) := by
  induction name with
  | nil => intro ci _ _; rfl
  | cons nc rest ih =>
    intro ci hlen hmatch
    unfold matchName
    rw [if_pos]
    · rw [show ci + (nc :: rest).length = (ci + 1) + rest.length from by
        rw [List.length_cons]; omega]
      apply ih (ci + 1) (by rw [List.length_cons] at hlen; omega)
      intro m hm
      have := hmatch (m + 1) (by rw [List.length_cons]; omega)
      rw [show ci + (m + 1) = ci + 1 + m from by omega] at this
      simpa using this
    · constructor
      · rw [List.length_cons] at hlen; omega
      · simpa using hmatch 0 (by rw [List.length_cons]; omega)

theorem matchName_inv (id name : List Nat) :
    ∀ ci r, matchName id name ci = some r →
    r = ci + name.length ∧ (0 < name.length → ci + name.length ≤ id.length) ∧
    (∀ m, m < name.length → toLowerByte (id.getD (ci + m) 0) = name.getD m 0) := by
  induction name with
  | nil =>
    intro ci r h
    injection h with h
    refine ⟨by simp [h.symm], by intro hp; simp at hp, by intro m hm; simp at hm⟩
  | cons nc rest ih =>
    intro ci r h
    unfold matchName at h
    by_cases hcond : ci < id.length ∧ toLowerByte (id.getD ci 0) = nc
    · rw [if_pos hcond] at h
      obtain ⟨hr, hlen, hmatch⟩ := ih (ci + 1) r h
      rw [List.length_cons]
      refine ⟨by omega, ?_, ?_⟩
      · intro _
        by_cases h0 : 0 < rest.length
        · have := hlen h0
          omega
        · omega
      · intro m hm
        match m with
        | 0 => simpa using hcond.2
        | m + 1 =>
          have := hmatch m (by omega)
          rw [show ci + 1 + m = ci + (m + 1) from by omega] at this
          simpa using this
    · rw [if_neg hcond] at h
      exact absurd h (by simp)

theorem matchNames_inv (id : List Nat) (names : List (List Nat)) :
    ∀ ci r, matchNames id names ci = some r →
    r = ci + (newBufferWithPrefix names).length ∧
    (0 < (newBufferWithPrefix names).length →
      ci + (newBufferWithPrefix names).length ≤ id.length) ∧
    (∀ m, m < (newBufferWithPrefix names).length →
      toLowerByte (id.getD (ci + m) 0) = (newBufferWithPrefix names).getD m 0) := by
  induction names with
  | nil =>
    intro ci r h
    injection h with h
    refine ⟨by simp [newBufferWithPrefix, h.symm], ?_, ?_⟩
    · intro hp; simp [newBufferWithPrefix] at hp
    · intro m hm; simp [newBufferWithPrefix] at hm
  | cons name rest ih =>
    intro ci r h
    have hflat : newBufferWithPrefix (name :: rest)
        = name ++ prefixSeparator :: newBufferWithPrefix rest := rfl
    unfold matchNames at h
    rcases hmn : matchName id name ci with _ | ci2
    · rw [hmn] at h; exact absurd h (by simp)
    rw [hmn] at h
    simp only [] at h
    obtain ⟨hci2, hlen1, hmatch1⟩ := matchName_inv id name ci ci2 hmn
    by_cases hcond : ci2 < id.length ∧ id.getD ci2 0 = prefixSeparator
    · rw [if_pos hcond] at h
      obtain ⟨hr, hlen2, hmatch2⟩ := ih (ci2 + 1) r h
      rw [hflat, List.length_append, List.length_cons]
      refine ⟨by omega, ?_, ?_⟩
      · intro _
        by_cases h0 : 0 < (newBufferWithPrefix rest).length
        · have := hlen2 h0
          omega
        · omega
      · intro m hm
        by_cases hm1 : m < name.length
        · rw [List.getD_append _ _ _ _ hm1]
          exact hmatch1 m hm1
        · rw [List.getD_append_right _ _ _ _ (by omega)]
          by_cases hm2 : m = name.length
          · subst hm2
            rw [Nat.sub_self, List.getD_cons_zero, show ci + name.length = ci2 from by omega,
              hcond.2]
            unfold toLowerByte prefixSeparator
            rw [if_neg (by omega)]
          · rw [show m - name.length = (m - name.length - 1) + 1 from by omega,
              List.getD_cons_succ]
            have := hmatch2 (m - name.length - 1) (by omega)
            rw [show ci2 + 1 + (m - name.length - 1) = ci + m from by omega] at this
            exact this
    · rw [if_neg hcond] at h
      exact absurd h (by simp)

theorem matchNames_some (id : List Nat) (names : List (List Nat)) :
    ∀ ci, ci + (newBufferWithPrefix names).length ≤ id.length →
    (∀ m, m < (newBufferWithPrefix names).length →
      toLowerByte (id.getD (ci + m) 0) = (newBufferWithPrefix names).getD m 0) →
    matchNames id names ci = some (ci + (newBufferWithPrefix names).length) := by
  induction names with
  | nil => intro ci _ _; rfl
  | cons name rest ih =>
    intro ci hlen hmatch
    have hflat : newBufferWithPrefix (name :: rest)
        = name ++ prefixSeparator :: newBufferWithPrefix rest := rfl
    rw [hflat, List.length_append, List.length_cons] at hlen hmatch ⊢
    have hm1 : ∀ m, m < name.length → toLowerByte (id.getD (ci + m) 0) = name.getD m 0 := by
      intro m hm
      have := hmatch m (by omega)
      rwa [List.getD_append _ _ _ _ hm] at this
    have hmn := matchName_some id name ci (by omega) hm1
    unfold matchNames
    rw [hmn]
    simp only []
    rw [if_pos ?hsep]
    case hsep =>
      refine ⟨by omega, ?_⟩
      apply toLowerByte_eq_sep
      have := hmatch name.length (by omega)
      rwa [List.getD_append_right _ _ _ _ (Nat.le_refl _), Nat.sub_self,
        List.getD_cons_zero] at this
    have hrest : ∀ m, m < (newBufferWithPrefix rest).length →
        toLowerByte (id.getD (ci + name.length + 1 + m) 0)
          = (newBufferWithPrefix rest).getD m 0 := by
      intro m hm
      have h2 := hmatch (name.length + 1 + m) (by omega)
      rw [List.getD_append_right _ _ _ _ (by omega)] at h2
      rw [show name.length + 1 + m - name.length = m + 1 from by omega] at h2
      rw [show ci + (name.length + 1 + m) = ci + name.length + 1 + m from by omega] at h2
      simpa using h2
    rw [ih (ci + name.length + 1) (by omega) hrest]
    congr 1
    omega

theorem validateFrom_ok (id : List Nat) :
    ∀ n ci, (∀ t, ci ≤ t → t < ci + n → ∃ d, getBaseCharCode id t = Except.ok d) →
    validateFrom id ci n = Except.ok () := by
  intro n
  induction n with
  | zero => intro ci _; rfl
  | succ n ih =>
    intro ci hv
    obtain ⟨d, hd⟩ := hv ci (Nat.le_refl _) (by omega)
    unfold validateFrom
    rw [hd]
    exact ih (ci + 1) (fun t h1 h2 => hv t (by omega) (by omega))

theorem validateFrom_inv (id : List Nat) :
    ∀ n ci, validateFrom id ci n = Except.ok () →
    ∀ t, ci ≤ t → t < ci + n → ∃ d, getBaseCharCode id t = Except.ok d := by
  intro n
  induction n with
  | zero => intro ci _ t h1 h2; omega
  | succ n ih =>
    intro ci h t h1 h2
    unfold validateFrom at h
    rcases hc : getBaseCharCode id ci with e | d
    · rw [hc] at h; exact absurd h (by simp)
    · rw [hc] at h
      by_cases ht : t = ci
      · exact ⟨d, ht ▸ hc⟩
      · exact ih (ci + 1) h t (by omega) (by omega)

set_option maxRecDepth 4096 in
theorem validateFrom_error_kind (id : List Nat) :
    ∀ n ci e, validateFrom id ci n = Except.error e → e = IDError.ErrInvalidChar := by
  intro n
  induction n with
  | zero => intro ci e h; exact absurd h (by simp [validateFrom])
  | succ n ih =>
    intro ci e h
    unfold validateFrom at h
    rcases hc : getBaseCharCode id ci with e2 | d
    · rw [hc] at h
      injection h with h
      exact h ▸ charCode_error _ _ hc
    · rw [hc] at h
      exact ih (ci + 1) e h

theorem cavp_ok (c : PrefixedIDCodec) (id : List Nat)
    (hlen : (newBufferWithPrefix c.Names).length < id.length)
    (hmatch : ∀ m, m < (newBufferWithPrefix c.Names).length →
      toLowerByte (id.getD m 0) = (newBufferWithPrefix c.Names).getD m 0)
    (hvalid : ∀ t, (newBufferWithPrefix c.Names).length ≤ t → t < id.length →
      ∃ d, getBaseCharCode id t = Except.ok d) :
    computeAndValidatePrefix c id = Except.ok (newBufferWithPrefix c.Names).length := by
  have hmn := matchNames_some id c.Names 0 (by omega) (by simpa using hmatch)
  rw [Nat.zero_add] at hmn
  unfold computeAndValidatePrefix
  rw [hmn]
  simp only []
  rw [if_pos (by omega)]
  have hvf : validateFrom id (newBufferWithPrefix c.Names).length
      (id.length - (newBufferWithPrefix c.Names).length) = Except.ok () :=
    validateFrom_ok id _ _ (fun t h1 h2 => hvalid t h1 (by omega))
  rw [hvf]

theorem cavp_inv (c : PrefixedIDCodec) (id : List Nat) (pl : Nat)
    (h : computeAndValidatePrefix c id = Except.ok pl) :
    pl = (newBufferWithPrefix c.Names).length ∧ pl < id.length ∧
    (∀ m, m < pl → toLowerByte (id.getD m 0) = (newBufferWithPrefix c.Names).getD m 0) ∧
    (∀ t, pl ≤ t → t < id.length → ∃ d, getBaseCharCode id t = Except.ok d) := by
  unfold computeAndValidatePrefix at h
  rcases hmn : matchNames id c.Names 0 with _ | ci
  · rw [hmn] at h; exact absurd h (by simp)
  rw [hmn] at h
  simp only [] at h
  obtain ⟨hci, _, hmatch⟩ := matchNames_inv id c.Names 0 ci hmn
  rw [Nat.zero_add] at hci
  by_cases hrem : 0 < id.length - ci
  · rw [if_pos hrem] at h
    rcases hvf : validateFrom id ci (id.length - ci) with e | u
    · rw [hvf] at h; exact absurd h (by simp)
    · rw [hvf] at h
      injection h with h
      subst h
      cases u
      refine ⟨hci, by omega, ?_, ?_⟩
      · rw [hci]
        simpa using hmatch
      · exact fun t h1 h2 => validateFrom_inv id (id.length - ci) ci hvf t h1 (by omega)
  · rw [if_neg hrem] at h
    exact absurd h (by simp)

theorem cavp_error_kind (c : PrefixedIDCodec) (id : List Nat) (e : IDError)
    (h : computeAndValidatePrefix c id = Except.error e) :
    e = IDError.ErrMalformedID ∨ e = IDError.ErrInvalidChar := by
  unfold computeAndValidatePrefix at h
  rcases hmn : matchNames id c.Names 0 with _ | ci
  · rw [hmn] at h
    injection h with h
    exact Or.inl h.symm
  rw [hmn] at h
  simp only [] at h
  by_cases hrem : 0 < id.length - ci
  · rw [if_pos hrem] at h
    rcases hvf : validateFrom id ci (id.length - ci) with e2 | u
    · rw [hvf] at h
      injection h with h
      exact Or.inr (h ▸ validateFrom_error_kind id _ _ _ hvf)
    · rw [hvf] at h; exact absurd h (by simp)
  · rw [if_neg hrem] at h
    injection h with h
    exact Or.inl h.symm

--
-- Round trip
--

theorem getD_map_lt (l : List Nat) (f : Nat → Nat) (i : Nat) (h : i < l.length) :
    (l.map f).getD i 0 = f (l.getD i 0) := by
  rw [List.getD_eq_getElem _ _ (by simpa using h), List.getD_eq_getElem _ _ h]
  simp

theorem Encode_eq (c : PrefixedIDCodec) (value : List Nat) (h1 : 1 ≤ value.length)
    (h2 : value.length ≤ MaxBytesIDSize) :
    c.Encode value = Except.ok (newBufferWithPrefix c.Names ++ appendBytes value) := by
  unfold PrefixedIDCodec.Encode
  rw [if_neg (by omega), if_neg (by omega), if_neg ?hc]
  case hc =>
    rw [List.length_append, newBufferWithPrefix_length, appendBytes_length]
    omega

set_option maxRecDepth 16000 in
theorem goToLower_ascii : ∀ c, c < 128 → goToLower c = asciiLower c := by decide

theorem goToLower_ascii_lt (c : Nat) (h : c < 128) : goToLower c < 128 := by
  rw [goToLower_ascii c h]
  unfold asciiLower
  split_ifs <;> omega

theorem utf8DecodeFirst_ascii (b0 : Nat) (rest : List Nat) (h : b0 < 128) :
    utf8DecodeFirst (b0 :: rest) = (b0, 1) := by
  simp [utf8DecodeFirst, h]

theorem utf8EncodeRune_ascii (r : Nat) (h : r < 128) : utf8EncodeRune r = [r] := by
  unfold utf8EncodeRune
  rw [if_pos (by omega)]

theorem toLowerGo_ascii : ∀ fuel s, s.length ≤ fuel → (∀ c ∈ s, c < 128) →
    toLowerGo fuel s = s.map asciiLower := by
  intro fuel
  induction fuel with
  | zero =>
    intro s hlen _
    match s with
    | [] => rfl
  | succ fuel ih =>
    intro s hlen hascii
    match s with
    | [] => rfl
    | b0 :: rest =>
      have hb0 : b0 < 128 := hascii b0 (by simp)
      show utf8EncodeRune (goToLower (utf8DecodeFirst (b0 :: rest)).1) ++
          toLowerGo fuel (List.drop ((utf8DecodeFirst (b0 :: rest)).2 - 1) rest)
        = List.map asciiLower (b0 :: rest)
      rw [utf8DecodeFirst_ascii b0 rest hb0]
      simp only []
      rw [utf8EncodeRune_ascii _ (goToLower_ascii_lt b0 hb0), goToLower_ascii b0 hb0,
        List.drop_zero,
        ih rest (by simpa using Nat.le_of_succ_le_succ (by simpa using hlen))
          (fun c hc => hascii c (by simp [hc])),
        List.map_cons]
      rfl

theorem toLowerStr_ascii (s : List Nat) (h : ∀ c ∈ s, c < 128) :
    toLowerStr s = s.map asciiLower :=
  toLowerGo_ascii s.length s (Nat.le_refl _) h

theorem toLowerByte_asciiLower (c : Nat) (h : c < 128) :
    toLowerByte (asciiLower c) = asciiLower c := by
  unfold toLowerByte asciiLower
  split_ifs <;> omega

theorem lower_fixed_of_mem (S : List (List Nat))
    (hS : ∀ name ∈ S, ∀ c ∈ name, c < 128) (x : Nat)
    (hx : x ∈ newBufferWithPrefix (NewCodecForNames S).Names) : toLowerByte x = x := by
  have hmem : ∀ names : List (List Nat),
      (∀ name ∈ names, ∀ ch ∈ name, toLowerByte ch = ch) →
      ∀ y ∈ newBufferWithPrefix names, toLowerByte y = y := by
    intro names
    induction names with
    | nil => intro _ y hy; simp [newBufferWithPrefix] at hy
    | cons name rest ih =>
      intro hlow y hy
      rw [show newBufferWithPrefix (name :: rest)
        = name ++ prefixSeparator :: newBufferWithPrefix rest from rfl] at hy
      rcases List.mem_append.mp hy with hy1 | hy2
      · exact hlow name (by simp) y hy1
      · rcases List.mem_cons.mp hy2 with hy3 | hy4
        · rw [hy3]
          unfold toLowerByte prefixSeparator
          rw [if_neg (by omega)]
        · exact ih (fun n hn ch hch => hlow n (by simp [hn]) ch hch) y hy4
  apply hmem _ ?hlow x hx
  case hlow =>
    intro name hname ch hch
    unfold NewCodecForNames at hname
    simp only [] at hname
    obtain ⟨s, hsS, hs⟩ := List.mem_map.mp hname
    rw [← hs, toLowerStr_ascii s (hS s hsS)] at hch
    obtain ⟨c0, hc0s, hc0⟩ := List.mem_map.mp hch
    rw [← hc0]
    exact toLowerByte_asciiLower c0 (hS s hsS c0 hc0s)

theorem enc_valid_char (value : List Nat) (hb : ∀ x ∈ value, x < 256) (u : Nat)
    (hu : u < (appendDigits value).length) :
    getBaseCharCode0 ((appendBytes value).getD u 0)
      = Except.ok ((appendDigits value).getD u 0) := by
  unfold appendBytes
  rw [getD_map_lt _ _ _ (by simpa using hu)]
  exact charCode_getBaseChar _ (appendDigits_lt value hb u)

theorem roundTrip (S : List (List Nat)) (hS : ∀ name ∈ S, ∀ c ∈ name, c < 128)
    (b : List Nat) (h1 : 1 ≤ b.length)
    (h2 : b.length ≤ 256) (hb : ∀ x ∈ b, x < 256) :
    (NewCodecForNames S).Encode b
      = Except.ok (newBufferWithPrefix (NewCodecForNames S).Names ++ appendBytes b) ∧
    (NewCodecForNames S).Decode
      (newBufferWithPrefix (NewCodecForNames S).Names ++ appendBytes b)
      = Except.ok b := by
  set c := NewCodecForNames S with hc
  set flat := newBufferWithPrefix c.Names with hflat
  set enc := flat ++ appendBytes b with henc
  have hencb : (appendBytes b).length = (appendDigits b).length := by
    unfold appendBytes; rw [List.length_map]
  have hsz : 1 ≤ (appendDigits b).length := by
    rw [appendDigits_length]
    unfold getEncodedSize byteSize baseBits
    omega
  have hel : enc.length = flat.length + (appendBytes b).length := List.length_append _ _
  refine ⟨Encode_eq c b h1 (by unfold MaxBytesIDSize; omega), ?_⟩
  have hvalid : ∀ t, flat.length ≤ t → t < enc.length →
      ∃ d, getBaseCharCode enc t = Except.ok d := by
    intro t ht1 ht2
    refine ⟨(appendDigits b).getD (t - flat.length) 0, ?_⟩
    unfold getBaseCharCode
    rw [henc, List.getD_append_right _ _ _ _ ht1]
    exact enc_valid_char b hb _ (by omega)
  have hcavp : computeAndValidatePrefix c enc = Except.ok flat.length := by
    apply cavp_ok c enc (by rw [← hflat]; omega) ?hm hvalid
    case hm =>
      intro m hm
      rw [henc, List.getD_append _ _ _ _ hm]
      have hmem : flat.getD m 0 ∈ flat := by
        rw [List.getD_eq_getElem _ _ hm]
        exact List.getElem_mem hm
      exact lower_fixed_of_mem S hS _ hmem
  unfold PrefixedIDCodec.Decode
  rw [hcavp]
  simp only []
  obtain ⟨r, hr, hrlen, hrbits⟩ := decodeBytes_spec enc flat.length enc.length (by omega) hvalid
  rw [hr]
  have hE : (appendDigits b).length = getEncodedSize b.length := appendDigits_length b
  have hEe : getEncodedSize b.length = (b.length * 8 + 5 - 1) / 5 := rfl
  have hbcL : (enc.length - flat.length) * 5 / 8 = b.length := by
    rw [hel, hencb, hE, hEe]
    omega
  have hdig : ∀ u, u < (appendDigits b).length →
      digitAt enc (flat.length + u) = (appendDigits b).getD u 0 := by
    intro u hu
    unfold digitAt getBaseCharCode
    rw [henc, List.getD_append_right _ _ _ _ (by omega),
      show flat.length + u - flat.length = u from by omega]
    rw [enc_valid_char b hb u hu]
  have hdb : ∀ t, t < 8 * b.length → dBit enc flat.length t = streamBit 8 b t := by
    intro t ht
    unfold dBit
    have ht5 : t / 5 < (appendDigits b).length := by
      rw [hE, hEe]
      omega
    rw [hdig (t / 5) ht5, appendDigits_testBit b hb (t / 5) (t % 5),
      show 5 * (t / 5) + t % 5 = t from by omega]
    simp [show t % 5 < 5 from by omega]
  have hgd : ∀ i, i < b.length → r.getD i 0 = b.getD i 0 := by
    intro i hi
    apply Nat.eq_of_testBit_eq
    intro k
    rw [hrbits i k]
    by_cases hk : k < 8
    · rw [hdb (8 * i + k) (by omega)]
      unfold streamBit
      rw [show (8 * i + k) / 8 = i from by omega, show (8 * i + k) % 8 = k from by omega]
      simp [hbcL, hi, hk]
    · rw [testBit_ge8 (b.getD i 0) k (getD_lt_256 b hb i) (by omega)]
      simp [hk]
  congr 1
  apply List.ext_getElem (by rw [hrlen, hbcL])
  intro i hi1 hi2
  have := hgd i (by omega)
  rwa [List.getD_eq_getElem _ _ hi1, List.getD_eq_getElem _ _ hi2] at this

--
-- Claims
--

set_option maxRecDepth 16000 in
/-- C1 counterexample: with the segment list `[["É"]]` (UTF-8 bytes
`[195, 137]`) and payload `[5]`, `Encode` succeeds but decoding its own
output fails with `ErrMalformedID`: `strings.ToLower` stores the two-byte
rune `é = [195, 169]`, whose lead byte no identifier byte can match under
the byte-wise lowering of `computeAndValidatePrefix`. -/
theorem c1_round_trip_counterexample :
    (NewCodecForNames [[195, 137]]).Encode [5] = Except.ok [195, 169, 45, 53, 48] ∧
    (NewCodecForNames [[195, 137]]).Decode [195, 169, 45, 53, 48]
      = Except.error IDError.ErrMalformedID :=
  ⟨rfl, rfl⟩

/-- C1 (amended to ASCII segments): for every byte sequence `b` with
`1 <= len(b) <= 256` and every list of ASCII name segments `S` (every
segment byte `< 128`), decoding the string produced by encoding `b` with
a codec built from `S` succeeds and returns exactly `b`. -/
theorem c1_round_trip_ascii (S : List (List Nat))
    (hS : ∀ name ∈ S, ∀ c ∈ name, c < 128) (b : List Nat)
    (h1 : 1 ≤ b.length) (h2 : b.length ≤ 256) (hb : ∀ x ∈ b, x < 256) :
    ∃ s, (NewCodecForNames S).Encode b = Except.ok s ∧
      (NewCodecForNames S).Decode s = Except.ok b :=
  ⟨_, (roundTrip S hS b h1 h2 hb).1, (roundTrip S hS b h1 h2 hb).2⟩

/-- Witness for the amended C1 at `S = [["a"]]`, `b = [5]`. -/
theorem c1_round_trip_ascii_witness :
    ∃ s, (NewCodecForNames [[97]]).Encode [5] = Except.ok s ∧
      (NewCodecForNames [[97]]).Decode s = Except.ok [5] :=
  c1_round_trip_ascii [[97]] (by decide) [5] (by decide) (by decide) (by decide)

/-- C2: with zero name segments, `Encode [0] = "00"`, `Encode [1] = "10"`,
`Encode [255] = "z7"` and `Encode [1,1,1,1,1] = "1802g040"`, the symbols
rendered through the fixed 32-character alphabet. -/
theorem c2_fixed_vectors :
    (NewCodecForNames []).Encode [0] = Except.ok [48, 48] ∧
    (NewCodecForNames []).Encode [1] = Except.ok [49, 48] ∧
    (NewCodecForNames []).Encode [255] = Except.ok [122, 55] ∧
    (NewCodecForNames []).Encode [1, 1, 1, 1, 1]
      = Except.ok [49, 56, 48, 50, 103, 48, 52, 48] :=
  ⟨rfl, rfl, rfl, rfl⟩

/-- C4: for every codec, `Encode` succeeds on every payload of exactly 256
bytes, fails with exactly `ErrIDEmpty` on a zero-length payload, and fails
with exactly `ErrIDTooBig` on any payload longer than 256 bytes. -/
theorem c4_encode_boundaries (S : List (List Nat)) (b : List Nat) :
    (b.length = 256 → ∃ s, (NewCodecForNames S).Encode b = Except.ok s) ∧
    (b.length = 0 → (NewCodecForNames S).Encode b = Except.error IDError.ErrIDEmpty) ∧
    (256 < b.length → (NewCodecForNames S).Encode b = Except.error IDError.ErrIDTooBig) := by
  refine ⟨?_, ?_, ?_⟩
  · intro h
    exact ⟨_, Encode_eq (NewCodecForNames S) b (by omega) (by unfold MaxBytesIDSize; omega)⟩
  · intro h
    unfold PrefixedIDCodec.Encode
    rw [if_pos h]
  · intro h
    unfold PrefixedIDCodec.Encode
    rw [if_neg (by omega), if_pos (by unfold MaxBytesIDSize; omega)]

/-- C6: for every codec and every string, `CanDecode` returns true exactly
when `Decode` succeeds. -/
theorem c6_canDecode_iff_decode (S : List (List Nat)) (id : List Nat) :
    (NewCodecForNames S).CanDecode id = true ↔
      ∃ v, (NewCodecForNames S).Decode id = Except.ok v := by
  unfold PrefixedIDCodec.CanDecode PrefixedIDCodec.Decode
  rcases hc : computeAndValidatePrefix (NewCodecForNames S) id with e | pl
  · simp only []
    constructor
    · intro h; exact absurd h (by simp)
    · intro ⟨v, hv⟩; exact absurd hv (by simp)
  · simp only []
    constructor
    · intro _
      obtain ⟨_, hlt, _, hvalid⟩ := cavp_inv _ _ _ hc
      obtain ⟨r, hr, _, _⟩ := decodeBytes_spec id pl id.length (by omega) hvalid
      exact ⟨r, hr⟩
    · intro _; trivial

theorem cavp_malformed_of_mismatch (c : PrefixedIDCodec) (id : List Nat)
    (hno : ¬ ((newBufferWithPrefix c.Names).length ≤ id.length ∧
      ∀ m, m < (newBufferWithPrefix c.Names).length →
        toLowerByte (id.getD m 0) = (newBufferWithPrefix c.Names).getD m 0)) :
    computeAndValidatePrefix c id = Except.error IDError.ErrMalformedID := by
  unfold computeAndValidatePrefix
  rcases hmn : matchNames id c.Names 0 with _ | ci
  · rfl
  · exfalso
    obtain ⟨hci, hbound, hmatch⟩ := matchNames_inv id c.Names 0 ci hmn
    apply hno
    constructor
    · by_cases h0 : 0 < (newBufferWithPrefix c.Names).length
      · have := hbound h0
        omega
      · omega
    · simpa using hmatch

/-- C3: decoding fails with `ErrMalformedID` when the prefix does not
case-insensitively match the codec's segments each followed by the
separator (including the identifier ending early), or when the remainder
after the prefix is empty; it fails with `ErrInvalidChar` when the prefix
matches, the remainder is non-empty and some remainder character is not in
the alphabet.  In each case `Decode` returns only the error, no bytes. -/
theorem c3_decode_failures (S : List (List Nat)) (id : List Nat) :
    ((¬ ((newBufferWithPrefix (NewCodecForNames S).Names).length ≤ id.length ∧
        ∀ m, m < (newBufferWithPrefix (NewCodecForNames S).Names).length →
          toLowerByte (id.getD m 0)
            = (newBufferWithPrefix (NewCodecForNames S).Names).getD m 0)) →
      (NewCodecForNames S).Decode id = Except.error IDError.ErrMalformedID) ∧
    ((∀ m, m < (newBufferWithPrefix (NewCodecForNames S).Names).length →
        toLowerByte (id.getD m 0)
          = (newBufferWithPrefix (NewCodecForNames S).Names).getD m 0) →
      id.length = (newBufferWithPrefix (NewCodecForNames S).Names).length →
      (NewCodecForNames S).Decode id = Except.error IDError.ErrMalformedID) ∧
    ((∀ m, m < (newBufferWithPrefix (NewCodecForNames S).Names).length →
        toLowerByte (id.getD m 0)
          = (newBufferWithPrefix (NewCodecForNames S).Names).getD m 0) →
      (newBufferWithPrefix (NewCodecForNames S).Names).length < id.length →
      (∃ t, (newBufferWithPrefix (NewCodecForNames S).Names).length ≤ t ∧ t < id.length ∧
        ∀ d, getBaseCharCode id t ≠ Except.ok d) →
      (NewCodecForNames S).Decode id = Except.error IDError.ErrInvalidChar) := by
  refine ⟨?_, ?_, ?_⟩
  · intro hno
    unfold PrefixedIDCodec.Decode
    rw [cavp_malformed_of_mismatch _ _ hno]
  · intro hmatch heq
    have hmn := matchNames_some id (NewCodecForNames S).Names 0 (by omega)
      (by simpa using hmatch)
    rw [Nat.zero_add] at hmn
    have hcv : computeAndValidatePrefix (NewCodecForNames S) id
        = Except.error IDError.ErrMalformedID := by
      unfold computeAndValidatePrefix
      rw [hmn]
      simp only []
      rw [if_neg (by omega)]
    unfold PrefixedIDCodec.Decode
    rw [hcv]
  · intro hmatch hlt hex
    obtain ⟨t, ht1, ht2, hinv⟩ := hex
    have hmn := matchNames_some id (NewCodecForNames S).Names 0 (by omega)
      (by simpa using hmatch)
    rw [Nat.zero_add] at hmn
    have hcv : computeAndValidatePrefix (NewCodecForNames S) id
        = Except.error IDError.ErrInvalidChar := by
      unfold computeAndValidatePrefix
      rw [hmn]
      simp only []
      rw [if_pos (by omega)]
      rcases hvf : validateFrom id (newBufferWithPrefix (NewCodecForNames S).Names).length
          (id.length - (newBufferWithPrefix (NewCodecForNames S).Names).length) with e | u
      · have he : e = IDError.ErrInvalidChar := validateFrom_error_kind id _ _ _ hvf
        rw [he]
      · exfalso
        obtain ⟨d, hd⟩ := validateFrom_inv id _ _ hvf t ht1 (by omega)
        exact hinv d hd
    unfold PrefixedIDCodec.Decode
    rw [hcv]

theorem toLowerByte_of_asciiLower_eq (a b : Nat) (h : asciiLower a = asciiLower b) :
    toLowerByte a = toLowerByte b := by
  unfold asciiLower at h
  unfold toLowerByte
  split_ifs at h ⊢ <;> omega

theorem charCode_of_asciiLower_eq (a b : Nat) (h : asciiLower a = asciiLower b) :
    getBaseCharCode0 a = getBaseCharCode0 b := by
  rw [← charCode_asciiLower a, h, charCode_asciiLower b]

theorem decodeLoop_congr (v1 v2 : List Nat) (endPos byteCount : Nat)
    (hcode : ∀ t, t < endPos → getBaseCharCode v1 t = getBaseCharCode v2 t) :
    ∀ fuel tailBits tailCnt off resultPos charPos result,
    decodeLoop v1 endPos byteCount tailBits tailCnt off resultPos charPos result fuel =
    decodeLoop v2 endPos byteCount tailBits tailCnt off resultPos charPos result fuel := by
  intro fuel
  induction fuel with
  | zero => intro _ _ _ _ _ _; rfl
  | succ fuel ih =>
    intro tailBits tailCnt off resultPos charPos result
    unfold decodeLoop
    by_cases hg : resultPos < byteCount ∧ charPos < endPos
    · rw [if_pos hg, if_pos hg]
      by_cases ht : 0 < tailCnt
      · rw [if_pos ht, if_pos ht]
        exact ih _ _ _ _ _ _
      · rw [if_neg ht, if_neg ht, hcode charPos hg.2]
        rcases getBaseCharCode v2 charPos with e | d
        · rfl
        · simp only []
          by_cases h85 : byteSize < off + baseBits
          · rw [if_pos h85, if_pos h85]
            exact ih _ _ _ _ _ _
          · rw [if_neg h85, if_neg h85]
            by_cases heq : off + baseBits = byteSize
            · rw [if_pos heq, if_pos heq]
              exact ih _ _ _ _ _ _
            · rw [if_neg heq, if_neg heq]
              exact ih _ _ _ _ _ _
    · rw [if_neg hg, if_neg hg]

theorem decodeBytes_congr (v1 v2 : List Nat) (startPos endPos : Nat)
    (hcode : ∀ t, t < endPos → getBaseCharCode v1 t = getBaseCharCode v2 t) :
    decodeBytes v1 startPos endPos = decodeBytes v2 startPos endPos := by
  unfold decodeBytes
  by_cases h : endPos ≤ startPos
  · rw [if_pos h, if_pos h]
  · rw [if_neg h, if_neg h]
    exact decodeLoop_congr v1 v2 endPos _ hcode _ _ _ _ _ _ _

/-- C5: for every codec, every identifier `id` that decodes successfully,
and every `id2` obtained from `id` by changing the case of any subset of
its (ASCII) characters, `Decode id2` succeeds with the same bytes. -/
theorem c5_case_insensitive (S : List (List Nat)) (id id2 v : List Nat)
    (hlen : id2.length = id.length)
    (hcase : ∀ i, i < id.length → asciiLower (id2.getD i 0) = asciiLower (id.getD i 0))
    (hdec : (NewCodecForNames S).Decode id = Except.ok v) :
    (NewCodecForNames S).Decode id2 = Except.ok v := by
  unfold PrefixedIDCodec.Decode at hdec ⊢
  rcases hc : computeAndValidatePrefix (NewCodecForNames S) id with e | pl
  · rw [hc] at hdec
    exact absurd hdec (by simp)
  rw [hc] at hdec
  simp only [] at hdec
  obtain ⟨hpl, hplt, hmatch, hvalid⟩ := cavp_inv _ _ _ hc
  have hcode : ∀ t, t < id.length → getBaseCharCode id2 t = getBaseCharCode id t := by
    intro t ht
    unfold getBaseCharCode
    exact charCode_of_asciiLower_eq _ _ (hcase t ht)
  have hc2 : computeAndValidatePrefix (NewCodecForNames S) id2 = Except.ok pl := by
    rw [hpl]
    apply cavp_ok _ _ (by omega) ?hm ?hv
    case hm =>
      intro m hm
      rw [toLowerByte_of_asciiLower_eq _ _ (hcase m (by omega))]
      exact hmatch m (by omega)
    case hv =>
      intro t ht1 ht2
      rw [hlen] at ht2
      obtain ⟨d, hd⟩ := hvalid t (by omega) ht2
      exact ⟨d, by rw [hcode t ht2]; exact hd⟩
  rw [hc2]
  simp only []
  rw [hlen, decodeBytes_congr id2 id pl id.length hcode]
  exact hdec

set_option maxRecDepth 8000 in
/-- Witness for C5 at `S = []`, `id = "z7"`, `id2 = "Z7"`. -/
theorem c5_case_insensitive_witness :
    (NewCodecForNames []).Decode [90, 55] = Except.ok [255] :=
  c5_case_insensitive [] [122, 55] [90, 55] [255] (by decide) (by decide) rfl

/-- C7: for every codec and every string whose prefix matches the codec's
segments and whose remainder consists of `n >= 1` alphabet-valid
characters, `Decode` succeeds and returns exactly `n*5/8` bytes, with no
error — including for symbol counts the encoder never produces. -/
theorem c7_decode_length (S : List (List Nat)) (id : List Nat) (n : Nat)
    (hmatch : ∀ m, m < (newBufferWithPrefix (NewCodecForNames S).Names).length →
      toLowerByte (id.getD m 0) = (newBufferWithPrefix (NewCodecForNames S).Names).getD m 0)
    (hn : id.length = (newBufferWithPrefix (NewCodecForNames S).Names).length + n)
    (hn1 : 1 ≤ n)
    (hvalid : ∀ t, (newBufferWithPrefix (NewCodecForNames S).Names).length ≤ t →
      t < id.length → ∃ d, getBaseCharCode id t = Except.ok d) :
    ∃ r, (NewCodecForNames S).Decode id = Except.ok r ∧ r.length = n * 5 / 8 := by
  have hcv := cavp_ok (NewCodecForNames S) id (by omega) hmatch hvalid
  unfold PrefixedIDCodec.Decode
  rw [hcv]
  simp only []
  obtain ⟨r, hr, hrlen, _⟩ := decodeBytes_spec id
    (newBufferWithPrefix (NewCodecForNames S).Names).length id.length (by omega) hvalid
  refine ⟨r, hr, ?_⟩
  rw [hrlen, show id.length - (newBufferWithPrefix (NewCodecForNames S).Names).length = n
    from by omega]

set_option maxRecDepth 8000 in
/-- Witness for C7 at `S = []`, `id = "0"`, `n = 1` (a symbol count the
encoder never emits), yielding zero bytes. -/
theorem c7_decode_length_witness :
    ∃ r, (NewCodecForNames []).Decode [48] = Except.ok r ∧ r.length = 1 * 5 / 8 := by
  apply c7_decode_length [] [48] 1 (by decide) (by decide) (by decide)
  intro t h1 h2
  have ht : t = 0 := by simpa using h2
  subst ht
  exact ⟨0, rfl⟩

set_option maxRecDepth 16000 in
/-- C8 counterexample: the segment lists `S1 = S2 = [["É"]]` are equal
after case folding, and the two codecs have equal prefixes, yet neither
can decode the identifier the other encoded: decoding fails with
`ErrMalformedID`, because the stored `strings.ToLower` bytes
`é = [195, 169]` cannot be matched by the byte-wise prefix matcher. -/
theorem c8_casefold_equiv_counterexample :
    List.map toLowerStr [[195, 137]] = List.map toLowerStr [[195, 137]] ∧
    (NewCodecForNames [[195, 137]]).GetPrefix
      = (NewCodecForNames [[195, 137]]).GetPrefix ∧
    (NewCodecForNames [[195, 137]]).Encode [5] = Except.ok [195, 169, 45, 53, 48] ∧
    (NewCodecForNames [[195, 137]]).Decode [195, 169, 45, 53, 48]
      = Except.error IDError.ErrMalformedID :=
  ⟨rfl, rfl, rfl, rfl⟩

/-- C8 (amended to ASCII segments): two codecs built from segment lists
equal after case-folding, the first of which is ASCII, have equal
`GetPrefix` values and each decodes the other's encodings back to the
payload. -/
theorem c8_casefold_equiv_ascii (S1 S2 : List (List Nat))
    (hS1 : ∀ name ∈ S1, ∀ c ∈ name, c < 128)
    (h : S1.map toLowerStr = S2.map toLowerStr) :
    (NewCodecForNames S1).GetPrefix = (NewCodecForNames S2).GetPrefix ∧
    (∀ b, 1 ≤ b.length → b.length ≤ 256 → (∀ x ∈ b, x < 256) →
      (∃ s, (NewCodecForNames S1).Encode b = Except.ok s ∧
        (NewCodecForNames S2).Decode s = Except.ok b) ∧
      (∃ s, (NewCodecForNames S2).Encode b = Except.ok s ∧
        (NewCodecForNames S1).Decode s = Except.ok b)) := by
  have hcc : NewCodecForNames S1 = NewCodecForNames S2 := by
    unfold NewCodecForNames
    rw [h]
  refine ⟨by rw [hcc], ?_⟩
  intro b h1 h2 hb
  constructor
  · rw [← hcc]
    exact ⟨_, (roundTrip S1 hS1 b h1 h2 hb).1, (roundTrip S1 hS1 b h1 h2 hb).2⟩
  · rw [← hcc]
    exact ⟨_, (roundTrip S1 hS1 b h1 h2 hb).1, (roundTrip S1 hS1 b h1 h2 hb).2⟩

/-- Witness for the amended C8 at `S1 = [["a"]]`, `S2 = [["A"]]`,
payload `[7]`. -/
theorem c8_casefold_equiv_ascii_witness :
    (NewCodecForNames [[97]]).GetPrefix = (NewCodecForNames [[65]]).GetPrefix ∧
    (∃ s, (NewCodecForNames [[97]]).Encode [7] = Except.ok s ∧
      (NewCodecForNames [[65]]).Decode s = Except.ok [7]) :=
  ⟨(c8_casefold_equiv_ascii [[97]] [[65]] (by decide) (by decide)).1,
    ((c8_casefold_equiv_ascii [[97]] [[65]] (by decide) (by decide)).2 [7] (by decide)
      (by decide) (by decide)).1⟩

theorem lastIndexByte_none (s : List Nat) (c : Nat) :
    (∀ i, i < s.length → s.getD i 0 ≠ c) → lastIndexByte s c = -1 := by
  induction s with
  | nil => intro _; rfl
  | cons a rest ih =>
    intro h
    unfold lastIndexByte
    rw [ih (fun i hi => by
      have := h (i + 1) (by simpa using Nat.succ_lt_succ hi)
      simpa using this)]
    rw [if_neg (by norm_num), if_neg ?ha]
    case ha =>
      have := h 0 (by simp)
      simpa using this

theorem lastIndexByte_last (s : List Nat) (c : Nat) :
    ∀ i, i < s.length → s.getD i 0 = c →
    (∀ j, i < j → j < s.length → s.getD j 0 ≠ c) →
    lastIndexByte s c = (i : Int) := by
  induction s with
  | nil => intro i hi _ _; simp at hi
  | cons a rest ih =>
    intro i hi hc hlast
    unfold lastIndexByte
    match i with
    | 0 =>
      rw [lastIndexByte_none rest c ?hn]
      case hn =>
        intro j hj
        have := hlast (j + 1) (by omega) (by simpa using Nat.succ_lt_succ hj)
        simpa using this
      rw [if_neg (by norm_num), if_pos (by simpa using hc)]
      rfl
    | i + 1 =>
      rw [ih i (by simpa using hi) (by simpa using hc) ?hl]
      case hl =>
        intro j h1 h2
        have := hlast (j + 1) (by omega) (by simpa using Nat.succ_lt_succ h2)
        simpa using this
      rw [if_pos (by omega)]
      omega

/-- C9: the free-standing `GetPrefix` returns the empty string when the
input holds no separator or its last separator sits at index 0, and
otherwise the lowercased take up to and including the last separator;
with the two concrete vectors `"a-1"` and `"a-Bb-cC123-1"`. -/
theorem c9_getPrefix_free (s : List Nat) :
    ((∀ i, i < s.length → s.getD i 0 ≠ 45) → GetPrefix s = []) ∧
    (∀ i, i < s.length → s.getD i 0 = 45 →
      (∀ j, i < j → j < s.length → s.getD j 0 ≠ 45) →
      ((i = 0 → GetPrefix s = []) ∧
       (0 < i → GetPrefix s = toLowerStr (s.take (i + 1))))) ∧
    GetPrefix [97, 45, 49] = [97, 45] ∧
    GetPrefix [97, 45, 66, 98, 45, 99, 67, 49, 50, 51, 45, 49]
      = [97, 45, 98, 98, 45, 99, 99, 49, 50, 51, 45] := by
  refine ⟨?_, ?_, rfl, rfl⟩
  · intro h
    unfold GetPrefix
    rw [lastIndexByte_none s prefixSeparator h, if_pos (by norm_num)]
  · intro i hi hc hlast
    constructor
    · intro h0
      subst h0
      unfold GetPrefix
      rw [lastIndexByte_last s prefixSeparator 0 hi hc hlast, if_pos (by norm_num)]
    · intro h0
      unfold GetPrefix
      rw [lastIndexByte_last s prefixSeparator i hi hc hlast, if_neg (by omega),
        Int.toNat_natCast]

set_option maxRecDepth 8000 in
/-- C10: the decoder ignores the surplus high bits of the final symbol:
two valid identifiers of equal length under the same codec that agree on
every character but the last, and whose last symbols agree on the bits
that land inside the decoded bytes, decode to the same byte sequence — so
`Decode` is not injective; concretely `"z7"` and `"zz"` both decode to
`[255]` with zero segments. -/
theorem c10_last_symbol_surplus :
    (∀ (S : List (List Nat)) (id1 id2 v1 v2 : List Nat) (pl : Nat),
      computeAndValidatePrefix (NewCodecForNames S) id1 = Except.ok pl →
      computeAndValidatePrefix (NewCodecForNames S) id2 = Except.ok pl →
      id1.length = id2.length →
      (∀ t, t < id1.length - 1 → id1.getD t 0 = id2.getD t 0) →
      (∀ k, k < 5 → 5 * (id1.length - pl - 1) + k < 8 * ((id1.length - pl) * 5 / 8) →
        (digitAt id1 (id1.length - 1)).testBit k
          = (digitAt id2 (id2.length - 1)).testBit k) →
      (NewCodecForNames S).Decode id1 = Except.ok v1 →
      (NewCodecForNames S).Decode id2 = Except.ok v2 →
      v1 = v2) ∧
    (NewCodecForNames []).Decode [122, 55] = Except.ok [255] ∧
    (NewCodecForNames []).Decode [122, 122] = Except.ok [255] ∧
    [122, 55] ≠ [122, 122] := by
  refine ⟨?_, rfl, rfl, by decide⟩
  intro S id1 id2 v1 v2 pl h1 h2 hlen hbut hsur hd1 hd2
  obtain ⟨hpl1, hlt1, _, hval1⟩ := cavp_inv _ _ _ h1
  obtain ⟨hpl2, hlt2, _, hval2⟩ := cavp_inv _ _ _ h2
  unfold PrefixedIDCodec.Decode at hd1 hd2
  rw [h1] at hd1
  rw [h2] at hd2
  simp only [] at hd1 hd2
  obtain ⟨r1, hr1, hr1len, hr1bits⟩ := decodeBytes_spec id1 pl id1.length (by omega) hval1
  obtain ⟨r2, hr2, hr2len, hr2bits⟩ := decodeBytes_spec id2 pl id2.length (by omega) hval2
  rw [hr1] at hd1
  rw [hr2] at hd2
  injection hd1 with hd1
  injection hd2 with hd2
  subst hd1
  subst hd2
  have hdb : ∀ t, t < 8 * ((id1.length - pl) * 5 / 8) → dBit id1 pl t = dBit id2 pl t := by
    intro t ht
    unfold dBit
    by_cases hl : pl + t / 5 < id1.length - 1
    · have hdig : digitAt id1 (pl + t / 5) = digitAt id2 (pl + t / 5) := by
        unfold digitAt getBaseCharCode
        rw [hbut (pl + t / 5) hl]
      rw [hdig]
    · have hle : pl + t / 5 = id1.length - 1 := by omega
      have ht5 : t / 5 = id1.length - pl - 1 := by omega
      have hs := hsur (t % 5) (by omega) (by rw [← ht5]; omega)
      rw [← hlen] at hs
      rw [hle]
      exact hs
  have hbc : (id2.length - pl) * 5 / 8 = (id1.length - pl) * 5 / 8 := by rw [hlen]
  apply List.ext_getElem (by rw [hr1len, hr2len, hbc])
  intro i h1i h2i
  have hgd : r1.getD i 0 = r2.getD i 0 := by
    apply Nat.eq_of_testBit_eq
    intro k
    rw [hr1bits i k, hr2bits i k, hbc]
    by_cases hik : i < (id1.length - pl) * 5 / 8 ∧ k < 8
    · rw [hdb (8 * i + k) (by omega)]
    · rcases not_and_or.mp hik with h | h <;> simp [h]
  rwa [List.getD_eq_getElem _ _ h1i, List.getD_eq_getElem _ _ h2i] at hgd
